import Mathlib

/-!
# Verification of `rmbuild/util.py`: content-hashing walk and worker pool

Shallow embedding of the two core components of `src/rmbuild/util.py`:

* the recursive content-hashing walk `hash_path` (with `read_in_chunks`), and
* the fixed-size worker pool `Worker` (`__init__`, `start`, `wait`,
  `add_task`, `_func`) built on `daemon`.

The digest accumulator (`hashlib.md5` object) is modelled as the list of
bytes fed to it via `update`: two accumulators that have been fed the same
byte stream hold the same digest, so digest equality is byte-stream
equality.  Filesystem state is modelled as an inductive tree; paths are
lists of components.  Fallible operations return `Except Unit`.
-/

set_option maxHeartbeats 1000000

namespace RMBuild

/-! ## Filesystem model

A path entry is exactly one of: regular readable file (with its byte
content), a regular file that cannot be opened/read, a directory (with its
children in the filesystem's natural iteration order), or something that is
neither a file nor a directory (special file, broken symlink).  A mutual
inductive is used instead of `List` nesting so that recursion over trees is
structural. -/

mutual

inductive Entry : Type where
  | file (content : List Nat) : Entry
  | brokenFile : Entry
  | special : Entry
  | dir (children : EntryList) : Entry

inductive EntryList : Type where
  | nil : EntryList
  | cons (name : String) (child : Entry) (rest : EntryList) : EntryList

end

/-- `p.is_dir()` for a path entry. -/
def Entry.isDir : Entry → Bool
  | .dir _ => true
  | _ => false

/-- Join relative-path components with `'/'`; the empty component list (the
path relative to itself) renders as `"."`.  This is
`p.relative_to(root).as_posix()` at the character level. -/
def joinComps : List (List Char) → List Char
  | [] => ['.']
  | [c] => c
  | c :: rest => c ++ '/' :: joinComps rest

/-- `p.relative_to(root).as_posix()` where `rel` is the list of components
of `p` below `root`. -/
def asPosix (rel : List String) : String :=
  String.mk (joinComps (rel.map String.data))

/-- The `name` computed by `hash_path`: the posix relative name, with a
trailing `"/"` appended when the entry is a directory
(`if p.is_dir(): name += "/"`). -/
def entryName (e : Entry) (rel : List String) : String :=
  if e.isDir then asPosix rel ++ "/" else asPosix rel

/-- `namefilter is None or namefilter(name)`: an absent filter accepts
every name. -/
def passes : Option (String → Bool) → String → Bool
  | none, _ => true
  | some f, n => f n

/-- `name.encode('utf-8')`: the bytes fed for a name token. -/
def strBytes (s : String) : List Nat :=
  s.toUTF8.toList.map UInt8.toNat

/-- `read_in_chunks(fobj, chunksize)`: `iter(lambda: fobj.read(chunksize), b'')`
splits the file's bytes into successive chunks of `chunksize` bytes (the
last chunk may be shorter); iteration stops at the first empty read, which
is immediate when `chunksize = 0` (Python's `read(0)` returns `b''`). -/
def read_in_chunks (content : List Nat) (chunksize : Nat) : List (List Nat) :=
  if _hn : chunksize = 0 then []
  else if _hc : content = [] then []
  else content.take chunksize :: read_in_chunks (content.drop chunksize) chunksize
termination_by content.length
decreasing_by
  simp only [List.length_drop]
  have := List.length_pos.mpr _hc
  omega

/-- Concatenation of a chunk list (what the successive `h.update(chunk)`
calls feed in total). -/
def joinChunks : List (List Nat) → List Nat
  | [] => []
  | c :: rest => c ++ joinChunks rest

/-- `CHUNK` default in `read_in_chunks(f)`. -/
def defaultChunkSize : Nat := 4096

/-! ## `hash_path`

`hash_path(path, hashobject=None, root=None, namefilter=None)`:

```
name = p.relative_to(root).as_posix()
if p.is_dir(): name += "/"
if namefilter is not None and not namefilter(name): return h
h.update(name.encode('utf-8'))
if path.is_dir():
    for fpath in path.iterdir():
        hash_path(fpath, hashobject=h, root=root, namefilter=namefilter)
else:
    with open(str(p), 'rb') as f:
        for chunk in read_in_chunks(f):
            h.update(chunk)
return h
```

`hash_path_rec` is the recursion with the relative component list made
explicit (each recursive call passes the same `root`, so the child of an
entry at relative components `rel` sits at `rel ++ [childname]`).  Opening
a non-file non-directory entry, or an unreadable file, raises `OSError`,
modelled as `Except.error ()`. -/

mutual

def hash_path_rec (namefilter : Option (String → Bool)) :
    Entry → List String → List Nat → Except Unit (List Nat)
  | e, rel, h =>
    let name := entryName e rel
    if passes namefilter name then
      match e with
      | .dir cs => hash_path_children namefilter cs rel (h ++ strBytes name)
      | .file c =>
        .ok ((read_in_chunks c defaultChunkSize).foldl
          (fun acc chunk => acc ++ chunk) (h ++ strBytes name))
      | .brokenFile => .error ()
      | .special => .error ()
    else .ok h

def hash_path_children (namefilter : Option (String → Bool)) :
    EntryList → List String → List Nat → Except Unit (List Nat)
  | .nil, _, h => .ok h
  | .cons n c rest, rel, h =>
    match hash_path_rec namefilter c (rel ++ [n]) h with
    | .ok h2 => hash_path_children namefilter rest rel h2
    | .error err => .error err

end

/-- The entry point `hash_path(path, hashobject, root, namefilter)`:
`if root is None: root = path` and `if hashobject is None: h = hash_constructor()`
(a fresh accumulator: the empty byte stream).  `path.drop root.length` is
`p.relative_to(root)` for the calls the module makes (where `root` is a
prefix of `path`). -/
def hash_path (e : Entry) (path : List String) (hashobject : Option (List Nat))
    (root : Option (List String)) (namefilter : Option (String → Bool)) :
    Except Unit (List Nat) :=
  let r := root.getD path
  let h := hashobject.getD []
  hash_path_rec namefilter e (path.drop r.length) h

/-! ## Structured view of the fed stream

`walk` records, instead of raw bytes, the structured sequence of
accumulator feeds: one name token per non-pruned entry (tagged with whether
the entry is a directory) and one content record per regular file.  The
digest stream is its byte encoding; this is what "the digest depends only
on the set of non-pruned paths, each one's relative name, and each regular
file's exact byte content" refers to. -/

inductive Item : Type where
  | nameTok (s : String) (isDir : Bool) : Item
  | fileBytes (content : List Nat) : Item
deriving DecidableEq

mutual

def walk (nf : Option (String → Bool)) : Entry → List String → Except Unit (List Item)
  | e, rel =>
    let name := entryName e rel
    if passes nf name then
      match e with
      | .dir cs =>
        match walkChildren nf cs rel with
        | .ok items => .ok (.nameTok name true :: items)
        | .error err => .error err
      | .file c => .ok [.nameTok name false, .fileBytes c]
      | .brokenFile => .error ()
      | .special => .error ()
    else .ok []

def walkChildren (nf : Option (String → Bool)) : EntryList → List String → Except Unit (List Item)
  | .nil, _ => .ok []
  | .cons n c rest, rel =>
    match walk nf c (rel ++ [n]) with
    | .ok i =>
      match walkChildren nf rest rel with
      | .ok is => .ok (i ++ is)
      | .error err => .error err
    | .error err => .error err

end

/-- Bytes contributed by one structured feed record. -/
def encodeItem : Item → List Nat
  | .nameTok s _ => strBytes s
  | .fileBytes c => c

/-- Bytes contributed by a structured feed sequence. -/
def encodeItems : List Item → List Nat
  | [] => []
  | i :: is => encodeItem i ++ encodeItems is

deriving instance DecidableEq for Except

/-- Modelled after the spec's description of the unchunked alternative for
a regular file: feed the name token, then the file's entire contents in a
single `update`, with no chunk-boundary padding. -/
def hash_path_file_unchunked (namefilter : Option (String → Bool)) (c : List Nat)
    (rel : List String) (h : List Nat) : Except Unit (List Nat) :=
  let name := entryName (.file c) rel
  if passes namefilter name then .ok (h ++ strBytes name ++ c) else .ok h

/-! ## Reachable unsupported entries

`hasBad nf e rel` holds exactly when the walk from `e` reaches, without
being pruned by the name filter, an entry that is neither a regular
readable file nor a directory — i.e. an entry whose `open`/read raises. -/

mutual

def hasBad (nf : Option (String → Bool)) : Entry → List String → Bool
  | e, rel =>
    passes nf (entryName e rel) &&
      (match e with
       | .file _ => false
       | .brokenFile => true
       | .special => true
       | .dir cs => hasBadChildren nf cs rel)

def hasBadChildren (nf : Option (String → Bool)) : EntryList → List String → Bool
  | .nil, _ => false
  | .cons n c rest, rel => hasBad nf c (rel ++ [n]) || hasBadChildren nf rest rel

end

/-- A filesystem name component is a single non-empty path component:
it contains no `'/'` separator. -/
def goodComp (s : String) : Bool :=
  !s.data.isEmpty && s.data.all (fun ch => !(ch == '/'))

/-! Well-formed trees: every child name is a legal single component. -/

mutual

def wfE : Entry → Bool
  | .dir cs => wfChildren cs
  | _ => true

def wfChildren : EntryList → Bool
  | .nil => true
  | .cons n c rest => goodComp n && wfE c && wfChildren rest

end

/-- The final character of a name token. -/
def lastChar (s : String) : Option Char := s.data.getLast?

/-! ## Worker pool model

`Worker` from `src/rmbuild/util.py`, together with the `daemon` helper.
Each worker thread runs `_func`:

```
while True:
    if self.errors: break
    try: task = q.get(False)
    except queue.Empty: break
    try: task()
    except Exception as e:
        self.log.exception(...)
        self.errors.append(e)
    q.task_done()
```

A task is opaque; its only observable behaviour is whether invocation
raises, so a task is a `Bool` (`true` = raises) and its identity is its
index in the order of `add_task` calls.  Under the CPython GIL the loop's
atomic shared-state accesses are: the `self.errors` truthiness read, the
non-blocking `q.get(False)`, the task invocation itself (opaque), and
`self.errors.append(e)`.  Each is one transition of a small-step machine;
a program counter records where each thread stands between them.
`q.task_done()` only touches the queue's internal join counter, which
nothing in the module observes, so it is not modelled. -/

inductive PC : Type where
  /-- Thread created with `start=False`, never started: it never runs. -/
  | unstarted : PC
  /-- At the top of the `while` loop, about to read `self.errors`. -/
  | top : PC
  /-- Passed the error check, about to call `q.get(False)`. -/
  | ready : PC
  /-- Dequeued task `t`, about to invoke it. -/
  | holding (t : Nat) : PC
  /-- Task `t` raised; about to execute `self.errors.append(e)`. -/
  | failed (t : Nat) : PC
  /-- `_func` returned (thread terminated). -/
  | stopped : PC
deriving DecidableEq

/-- One thread handle, as returned by `daemon`. -/
structure ThreadH : Type where
  name : String
  pc : PC
deriving DecidableEq

/-- Scheduling events, recorded in global order: worker `w` dequeued task
`t`, worker `w` invoked task `t`, worker `w` appended task `t`'s exception
to `errors`. -/
inductive Event : Type where
  | deq (w t : Nat) : Event
  | run (w t : Nat) : Event
  | err (w t : Nat) : Event
deriving DecidableEq

/-- The `Worker` object's state plus the run-time state of its threads.
`tasks` is the registry of enqueued task behaviours (index = task id),
`queue` the pending FIFO of task ids, `invoked` the ghost log of task
invocations in execution order, `events` the ghost global event log. -/
structure Worker : Type where
  name : String
  tasks : List Bool
  queue : List Nat
  threads : List ThreadH
  started : Bool
  errors : List Nat
  invoked : List Nat
  events : List Event
deriving DecidableEq

/-- `daemon(name, func, start)`: creates a (daemonic) thread running
`_func`; it begins executing only if `start` is true. -/
def daemon (name : String) (start : Bool) : ThreadH :=
  { name := name, pc := if start then PC.top else PC.unstarted }

/-- `Worker.__init__(self, name, threads=1, logger=log)`:

```
self.queue = queue.Queue()
if threads > 1:
    self.threads = [daemon("%s:%i" % (name, i), self._func, start=False) for i in range(threads)]
else:
    self.threads = [daemon(name, self._func, start=False)]
self.started = False
self.errors = []
```

`threads` is a Python `int`, hence `Int` here. -/
def workerInit (name : String) (threads : Int) : Worker :=
  { name := name
    tasks := []
    queue := []
    threads :=
      if 1 < threads then
        (List.range threads.toNat).map (fun i => daemon (name ++ ":" ++ toString i) false)
      else [daemon name false]
    started := false
    errors := []
    invoked := []
    events := [] }

/-- `Worker.start`: `for thread in self.threads: thread.start()`, then
`self.started = True; return self`.  Threads are started in sequence; a
thread started earlier stepping before a later `thread.start()` is the
same as a schedule that simply never picks the later thread in between,
so starting is modelled in one go. -/
def Worker.start (s : Worker) : Worker :=
  { s with threads := s.threads.map (fun t => { t with pc := PC.top }), started := true }

/-- `Worker.add_task`: `self.queue.put(task)` — appends to the FIFO and
registers the task's behaviour.  Never blocks (unbounded queue). -/
def Worker.add_task (s : Worker) (raises : Bool) : Worker :=
  { s with tasks := s.tasks ++ [raises], queue := s.queue ++ [s.tasks.length] }

/-- Enqueue a list of task behaviours in order via `add_task`. -/
def addTasks (s : Worker) (bs : List Bool) : Worker :=
  bs.foldl Worker.add_task s

/-- `Worker.wait`: `if self.started: for thread in self.threads: thread.join()`.
`Thread.join` blocks but mutates no field of the `Worker` object, so the
state effect is the identity in both branches; blocking is captured by
`waitReturns`. -/
def Worker.wait (s : Worker) : Worker :=
  if s.started then s else s

/-- When `wait` can return: immediately if the pool was never started,
otherwise exactly when every `thread.join()` returns, i.e. when every
worker thread has terminated. -/
def waitReturns (s : Worker) : Bool :=
  !s.started || s.threads.all (fun t => t.pc == PC.stopped)

/-- One atomic transition of worker thread `w` (per the `_func` loop).
Scheduling a thread that does not exist, was never started, or has
terminated changes nothing. -/
def step (s : Worker) (w : Nat) : Worker :=
  match s.threads[w]? with
  | none => s
  | some t =>
    match t.pc with
    | PC.unstarted => s
    | PC.stopped => s
    | PC.top =>
      -- `if self.errors: break`
      if s.errors.isEmpty then
        { s with threads := s.threads.set w { t with pc := PC.ready } }
      else
        { s with threads := s.threads.set w { t with pc := PC.stopped } }
    | PC.ready =>
      -- `try: task = q.get(False) / except queue.Empty: break`
      match s.queue with
      | [] => { s with threads := s.threads.set w { t with pc := PC.stopped } }
      | k :: rest =>
        { s with queue := rest
                 threads := s.threads.set w { t with pc := PC.holding k }
                 events := s.events ++ [Event.deq w k] }
    | PC.holding k =>
      -- `try: task() / except Exception as e: ...`
      if s.tasks.getD k false then
        { s with threads := s.threads.set w { t with pc := PC.failed k }
                 invoked := s.invoked ++ [k]
                 events := s.events ++ [Event.run w k] }
      else
        { s with threads := s.threads.set w { t with pc := PC.top }
                 invoked := s.invoked ++ [k]
                 events := s.events ++ [Event.run w k] }
    | PC.failed k =>
      -- `self.errors.append(e)`, then back to the top of the loop
      { s with errors := s.errors ++ [k]
               threads := s.threads.set w { t with pc := PC.top }
               events := s.events ++ [Event.err w k] }

/-- Run a schedule: at each instant the scheduler picks which worker
thread performs its next atomic transition. -/
def runSched (s : Worker) (sched : List Nat) : Worker :=
  sched.foldl step s

/-- The lifecycle the claims quantify over: construct the pool, enqueue
all tasks via `add_task` before `start()`, start, then let the scheduler
interleave the workers. -/
def poolRun (name : String) (n : Int) (behaviors : List Bool) (sched : List Nat) : Worker :=
  runSched (Worker.start (addTasks (workerInit name n) behaviors)) sched

/-- The program counter of thread `w` (a thread that does not exist is
treated as terminated). -/
def pcAt (s : Worker) (w : Nat) : PC :=
  match s.threads[w]? with
  | some t => t.pc
  | none => PC.stopped

/-- Number of threads currently holding task `k` (dequeued, invocation not
yet finished successfully or recorded as failed). -/
def heldCount (s : Worker) (k : Nat) : Nat :=
  s.threads.countP (fun t => t.pc == PC.holding k)

/-- Is this event an `errors.append`? -/
def isErr : Event → Bool
  | Event.err _ _ => true
  | _ => false

/-- Position of the first recorded error in the event log. -/
def firstErrIdx (evs : List Event) : Option Nat :=
  evs.findIdx? isErr

/-- Number of task invocations performed by worker `w` in an event log. -/
def runsBy (w : Nat) (evs : List Event) : Nat :=
  evs.countP (fun e => match e with | Event.run w' _ => w' == w | _ => false)

/-- Position of the dequeue of task `k` in the event log. -/
def deqIdxOf (evs : List Event) (k : Nat) : Option Nat :=
  evs.findIdx? (fun e => match e with | Event.deq _ t => t == k | _ => false)

/-- The claim "no more tasks run after the first recorded error than those
already dequeued", as a predicate on an event log: every invocation that
happens after the first recorded error is of a task that was dequeued
before that error. -/
def postErrorRunsPredequeued (evs : List Event) : Bool :=
  match firstErrIdx evs with
  | none => true
  | some i =>
    (List.range evs.length).all fun j =>
      match evs[j]? with
      | some (Event.run _ t) =>
        if i < j then
          match deqIdxOf evs t with
          | some d => decide (d < i)
          | none => false
        else true
      | _ => true

/-- At most how many further invocations a thread can perform once
`errors` is non-empty, judging from where it stands in the loop. -/
def pot : PC → Nat
  | PC.ready => 1
  | PC.holding _ => 1
  | _ => 0


/-- The program counter of thread `w` in a thread list. -/
def pcOf (l : List ThreadH) (w : Nat) : PC :=
  match l[w]? with
  | some t => t.pc
  | none => PC.stopped

/-- Invariant for an error-free run with task registry all-`false`
(`n` = number of enqueued tasks): no failures, and every task id is, at
each instant, in exactly one of `invoked`, a thread's hands, or the
queue. -/
def InvC1 (n : Nat) (s : Worker) : Prop :=
  (∀ b ∈ s.tasks, b = false) ∧
  s.errors = [] ∧
  (∀ w k, pcAt s w ≠ PC.failed k) ∧
  (∀ k, s.invoked.count k + heldCount s k + s.queue.count k = (List.range n).count k) ∧
  ((∃ t ∈ s.threads, t.pc = PC.stopped) → s.queue = []) ∧
  s.threads ≠ []

/-- Invariant for arbitrary runs: a raising invoked task is recorded or
about to be; an error append is always by a worker that ran the task; and
after the first recorded error each worker performs at most one further
invocation (`pot` many). -/
def InvErr (s : Worker) : Prop :=
  (∀ k, k ∈ s.invoked → s.tasks.getD k false = true →
    k ∈ s.errors ∨ ∃ w, pcAt s w = PC.failed k) ∧
  (∀ w k, Event.err w k ∈ s.events → Event.run w k ∈ s.events) ∧
  (∀ w k, pcAt s w = PC.failed k → Event.run w k ∈ s.events) ∧
  (match firstErrIdx s.events with
   | none => True
   | some i => s.errors ≠ [] ∧ ∀ w, runsBy w (s.events.drop (i + 1)) + pot (pcAt s w) ≤ 1)

theorem foldl_append_chunks (l : List (List Nat)) (a : List Nat) :
    l.foldl (fun acc chunk => acc ++ chunk) a = a ++ joinChunks l := by
  induction l generalizing a with
  | nil => simp [joinChunks]
  | cons c rest ih => simp [joinChunks, ih, List.append_assoc]

theorem joinChunks_read_in_chunks (c : List Nat) (n : Nat) (hn : 0 < n) :
    joinChunks (read_in_chunks c n) = c := by
  induction c, n using read_in_chunks.induct with
  | case1 h => omega
  | case2 n hn0 => rw [read_in_chunks]; simp [joinChunks]
  | case3 c n hn0 hc ih =>
    rw [read_in_chunks]
    simp [hn0, hc, joinChunks, ih hn, List.take_append_drop]

theorem encodeItems_append (a b : List Item) :
    encodeItems (a ++ b) = encodeItems a ++ encodeItems b := by
  induction a with
  | nil => simp [encodeItems]
  | cons i is ih => simp [encodeItems, ih, List.append_assoc]

mutual

theorem hash_path_rec_eq_walk (nf : Option (String → Bool)) (e : Entry) (rel : List String)
    (h : List Nat) :
    hash_path_rec nf e rel h = (walk nf e rel).map (fun items => h ++ encodeItems items) := by
  cases e with
  | file c =>
    by_cases hp : passes nf (entryName (.file c) rel) = true
    · simp [hash_path_rec, walk, hp, encodeItems, encodeItem, foldl_append_chunks,
        joinChunks_read_in_chunks c defaultChunkSize (by decide), Except.map, List.append_assoc]
    · simp [hash_path_rec, walk, hp, encodeItems, Except.map]
  | brokenFile =>
    by_cases hp : passes nf (entryName .brokenFile rel) = true
    · simp [hash_path_rec, walk, hp, Except.map]
    · simp [hash_path_rec, walk, hp, encodeItems, Except.map]
  | special =>
    by_cases hp : passes nf (entryName .special rel) = true
    · simp [hash_path_rec, walk, hp, Except.map]
    · simp [hash_path_rec, walk, hp, encodeItems, Except.map]
  | dir cs =>
    by_cases hp : passes nf (entryName (.dir cs) rel) = true
    · have hc := hash_path_children_eq_walk nf cs rel
        (h ++ strBytes (entryName (.dir cs) rel))
      cases hw : walkChildren nf cs rel with
      | ok items =>
        rw [hw] at hc
        simp [hash_path_rec, walk, hp, hw, hc, encodeItems, encodeItem, Except.map,
          List.append_assoc]
      | error err =>
        rw [hw] at hc
        simp [hash_path_rec, walk, hp, hw, hc, Except.map]
    · simp [hash_path_rec, walk, hp, encodeItems, Except.map]

theorem hash_path_children_eq_walk (nf : Option (String → Bool)) (cs : EntryList)
    (rel : List String) (h : List Nat) :
    hash_path_children nf cs rel h =
      (walkChildren nf cs rel).map (fun items => h ++ encodeItems items) := by
  cases cs with
  | nil => simp [hash_path_children, walkChildren, encodeItems, Except.map]
  | cons n c rest =>
    have he := hash_path_rec_eq_walk nf c (rel ++ [n]) h
    cases hw : walk nf c (rel ++ [n]) with
    | ok i =>
      rw [hw] at he
      have hr := hash_path_children_eq_walk nf rest rel (h ++ encodeItems i)
      cases hw2 : walkChildren nf rest rel with
      | ok is =>
        rw [hw2] at hr
        simp [hash_path_children, walkChildren, hw, hw2, he, hr, Except.map,
          encodeItems_append, List.append_assoc]
      | error err =>
        rw [hw2] at hr
        simp [hash_path_children, walkChildren, hw, hw2, he, hr, Except.map]
    | error err =>
      rw [hw] at he
      simp [hash_path_children, walkChildren, hw, he, Except.map]

end

theorem hash_path_rec_pruned (nf : Option (String → Bool)) (e : Entry) (rel : List String)
    (h : List Nat) (hp : passes nf (entryName e rel) = false) :
    hash_path_rec nf e rel h = .ok h := by
  cases e <;> simp [hash_path_rec, hp]

/-- Claim C3 (hash determinism): the digest bytes produced by `hash_path`
are a function of the structured walk alone — the sequence of non-pruned
entries with their relative names, kinds, and regular files' exact byte
contents.  Two invocations whose walks agree (in particular, two
invocations on the same snapshot, root and name filter, with fresh
accumulators) produce identical digest byte streams; nothing else (machine,
process, time) exists for the result to depend on. -/
theorem hash_determinism (nf nf' : Option (String → Bool)) (e e' : Entry)
    (rel rel' : List String) (h : List Nat)
    (hw : walk nf e rel = walk nf' e' rel') :
    hash_path_rec nf e rel h = hash_path_rec nf' e' rel' h := by
  rw [hash_path_rec_eq_walk, hash_path_rec_eq_walk, hw]

/-- Witness for C3: two trees differing only in a pruned file's content hash identically. -/
theorem hash_determinism_witness :
    walk (some (fun n => !(n == "x.log")))
        (.dir (.cons "x.log" (.file [1]) (.cons "a" (.file [10]) .nil))) [] =
      walk (some (fun n => !(n == "x.log")))
        (.dir (.cons "x.log" (.file [2]) (.cons "a" (.file [10]) .nil))) [] ∧
    hash_path_rec (some (fun n => !(n == "x.log")))
        (.dir (.cons "x.log" (.file [1]) (.cons "a" (.file [10]) .nil))) [] [] =
      hash_path_rec (some (fun n => !(n == "x.log")))
        (.dir (.cons "x.log" (.file [2]) (.cons "a" (.file [10]) .nil))) [] [] :=
  ⟨by decide, hash_determinism _ _ _ _ _ _ [] (by decide)⟩

/-- Claim C4 (name-filter pruning): when the name filter rejects an
entry's computed relative name, `hash_path` returns the accumulator
unchanged for that branch — neither the entry's name nor any descendant's
name or content is fed, even if descendants' names would individually pass
the filter. -/
theorem namefilter_pruning (f : String → Bool) (e : Entry) (rel : List String) (h : List Nat)
    (hf : f (entryName e rel) = false) :
    hash_path_rec (some f) e rel h = .ok h :=
  hash_path_rec_pruned (some f) e rel h (by simpa [passes] using hf)

/-- Witness for C4: a rejected directory whose child would individually pass contributes nothing. -/
theorem namefilter_pruning_witness :
    (fun n => !(n == "a/")) (entryName (.dir (.cons "b" (.file [1]) .nil)) ["a"]) = false ∧
    (fun n => !(n == "a/")) (entryName (.file [1]) ["a", "b"]) = true ∧
    hash_path_rec (some (fun n => !(n == "a/"))) (.dir (.cons "b" (.file [1]) .nil)) ["a"] [] =
      .ok [] :=
  ⟨by decide, by decide, namefilter_pruning _ _ _ _ (by decide)⟩

/-- Claim C5 (chunked-read equivalence): for every regular file, including
lengths that are not a multiple of the 4096-byte default chunk size,
feeding the file chunk by chunk via `hash_path` equals feeding the name
token and then the entire contents in a single update, and the chunks
concatenate exactly to the file's bytes — no padding, no lost or duplicated
bytes at chunk boundaries. -/
theorem chunked_read_equiv (nf : Option (String → Bool)) (c : List Nat) (rel : List String)
    (h : List Nat) :
    hash_path_rec nf (.file c) rel h = hash_path_file_unchunked nf c rel h ∧
    joinChunks (read_in_chunks c defaultChunkSize) = c := by
  refine ⟨?_, joinChunks_read_in_chunks c defaultChunkSize (by decide)⟩
  by_cases hp : passes nf (entryName (.file c) rel) = true <;>
    simp [hash_path_rec, hash_path_file_unchunked, hp, foldl_append_chunks,
      joinChunks_read_in_chunks c defaultChunkSize (by decide), List.append_assoc]

mutual

theorem hash_path_rec_error_iff (nf : Option (String → Bool)) (e : Entry) (rel : List String)
    (h : List Nat) :
    hash_path_rec nf e rel h = .error () ↔ hasBad nf e rel = true := by
  cases e with
  | file c =>
    by_cases hp : passes nf (entryName (.file c) rel) = true <;>
      simp [hash_path_rec, hasBad, hp]
  | brokenFile =>
    by_cases hp : passes nf (entryName .brokenFile rel) = true <;>
      simp [hash_path_rec, hasBad, hp]
  | special =>
    by_cases hp : passes nf (entryName .special rel) = true <;>
      simp [hash_path_rec, hasBad, hp]
  | dir cs =>
    by_cases hp : passes nf (entryName (.dir cs) rel) = true
    · simp [hash_path_rec, hasBad, hp,
        hash_path_children_error_iff nf cs rel (h ++ strBytes (entryName (.dir cs) rel))]
    · simp [hash_path_rec, hasBad, hp]

theorem hash_path_children_error_iff (nf : Option (String → Bool)) (cs : EntryList)
    (rel : List String) (h : List Nat) :
    hash_path_children nf cs rel h = .error () ↔ hasBadChildren nf cs rel = true := by
  cases cs with
  | nil => simp [hash_path_children, hasBadChildren]
  | cons n c rest =>
    cases he : hash_path_rec nf c (rel ++ [n]) h with
    | ok h2 =>
      have hcb : ¬ hasBad nf c (rel ++ [n]) = true := by
        rw [← hash_path_rec_error_iff nf c (rel ++ [n]) h, he]
        simp
      simp [hash_path_children, he, hcb, hasBadChildren,
        hash_path_children_error_iff nf rest rel h2]
    | error u =>
      cases u
      have hcb : hasBad nf c (rel ++ [n]) = true :=
        (hash_path_rec_error_iff nf c (rel ++ [n]) h).mp he
      simp [hash_path_children, he, hcb, hasBadChildren]

end

/-- Claim C6 (failure on unsupported entries): whenever the walk reaches,
without being pruned first, an entry that is neither a regular readable
file nor a directory (special file, broken symlink, unreadable file),
`hash_path` fails with an I/O error propagated to the caller instead of
silently skipping the entry. -/
theorem hash_unsupported_error (nf : Option (String → Bool)) (e : Entry) (rel : List String)
    (h : List Nat) (hb : hasBad nf e rel = true) :
    hash_path_rec nf e rel h = .error () :=
  (hash_path_rec_error_iff nf e rel h).mpr hb

/-- Witness for C6: a directory containing a special entry makes the hash fail. -/
theorem hash_unsupported_error_witness :
    hasBad none (.dir (.cons "s" .special .nil)) [] = true ∧
    hash_path_rec none (.dir (.cons "s" .special .nil)) [] [] = .error () :=
  ⟨by decide, hash_unsupported_error _ _ _ [] (by decide)⟩

theorem data_append (a b : String) : (a ++ b).data = a.data ++ b.data := by
  cases a; cases b; rfl

theorem joinComps_ne_nil (comps : List (List Char)) (hg : ∀ c ∈ comps, c ≠ []) :
    joinComps comps ≠ [] := by
  match comps with
  | [] => simp [joinComps]
  | [c] => simpa [joinComps] using hg c (by simp)
  | c :: c2 :: rest => simp [joinComps]

theorem joinComps_getLast?_ne_slash (comps : List (List Char))
    (hg : ∀ c ∈ comps, c ≠ [] ∧ '/' ∉ c) :
    (joinComps comps).getLast? ≠ some '/' := by
  match comps with
  | [] => simp [joinComps]
  | [c] =>
    obtain ⟨hne, hnm⟩ := hg c (by simp)
    rw [joinComps, List.getLast?_eq_getLast_of_ne_nil hne]
    intro hcon
    apply hnm
    have hmem := List.getLast_mem hne
    rwa [Option.some_inj.mp hcon] at hmem
  | c :: c2 :: rest =>
    have ih := joinComps_getLast?_ne_slash (c2 :: rest)
      (fun x hx => hg x (List.mem_cons_of_mem c hx))
    have hne : joinComps (c2 :: rest) ≠ [] :=
      joinComps_ne_nil _ (fun x hx => (hg x (List.mem_cons_of_mem c hx)).1)
    rw [show joinComps (c :: c2 :: rest) = c ++ '/' :: joinComps (c2 :: rest) from rfl]
    rw [List.getLast?_append_of_ne_nil c (by simp)]
    rw [show ('/' :: joinComps (c2 :: rest)) = ['/'] ++ joinComps (c2 :: rest) from rfl]
    rw [List.getLast?_append_of_ne_nil ['/'] hne]
    exact ih

theorem goodComp_spec (s : String) (hg : goodComp s = true) :
    s.data ≠ [] ∧ '/' ∉ s.data := by
  simp only [goodComp, Bool.and_eq_true, List.all_eq_true] at hg
  obtain ⟨h1, h2⟩ := hg
  constructor
  · intro hnil
    rw [hnil] at h1
    simp at h1
  · intro hmem
    have := h2 '/' hmem
    simp at this

theorem lastChar_asPosix_ne_slash (rel : List String) (hg : rel.all goodComp = true) :
    lastChar (asPosix rel) ≠ some '/' := by
  rw [lastChar, asPosix]
  apply joinComps_getLast?_ne_slash
  intro c hc
  obtain ⟨x, hx, rfl⟩ := List.mem_map.mp hc
  exact goodComp_spec x (List.all_eq_true.mp hg x hx)

theorem lastChar_dir_slash (rel : List String) :
    lastChar (asPosix rel ++ "/") = some '/' := by
  rw [lastChar, data_append]
  rw [show ("/" : String).data = ['/'] from rfl]
  rw [List.getLast?_append_of_ne_nil _ (by simp)]
  rfl

mutual

theorem walk_tokens_slash (nf : Option (String → Bool)) (e : Entry) (rel : List String)
    (items : List Item) (hwf : wfE e = true) (hrel : rel.all goodComp = true)
    (hw : walk nf e rel = .ok items) :
    ∀ s b, Item.nameTok s b ∈ items → (lastChar s = some '/' ↔ b = true) := by
  cases e with
  | file c =>
    by_cases hp : passes nf (entryName (.file c) rel) = true
    · simp only [walk, hp, if_true] at hw
      have hitems : items = [.nameTok (entryName (.file c) rel) false, .fileBytes c] := by
        cases hw; rfl
      subst hitems
      intro s b hm
      simp only [List.mem_cons, List.mem_singleton] at hm
      rcases hm with hm | hm | hm
      · cases hm
        simp only [entryName, Entry.isDir, Bool.false_eq_true, if_false]
        simp [lastChar_asPosix_ne_slash rel hrel]
      · cases hm
      · cases hm
    · simp only [walk, hp, if_false] at hw
      have hitems : items = [] := by cases hw; rfl
      subst hitems
      intro s b hm
      cases hm
  | brokenFile =>
    by_cases hp : passes nf (entryName .brokenFile rel) = true
    · simp only [walk, hp, if_true] at hw
      cases hw
    · simp only [walk, hp, if_false] at hw
      have hitems : items = [] := by cases hw; rfl
      subst hitems
      intro s b hm
      cases hm
  | special =>
    by_cases hp : passes nf (entryName .special rel) = true
    · simp only [walk, hp, if_true] at hw
      cases hw
    · simp only [walk, hp, if_false] at hw
      have hitems : items = [] := by cases hw; rfl
      subst hitems
      intro s b hm
      cases hm
  | dir cs =>
    by_cases hp : passes nf (entryName (.dir cs) rel) = true
    · simp only [walk, hp, if_true] at hw
      cases hwc : walkChildren nf cs rel with
      | ok its =>
        rw [hwc] at hw
        have hitems : items = .nameTok (entryName (.dir cs) rel) true :: its := by
          cases hw; rfl
        subst hitems
        intro s b hm
        simp only [List.mem_cons] at hm
        rcases hm with hm | hm
        · cases hm
          simp only [entryName, Entry.isDir, if_true]
          simp [lastChar_dir_slash rel]
        · exact walkChildren_tokens_slash nf cs rel its (by simpa [wfE] using hwf) hrel hwc s b hm
      | error u => rw [hwc] at hw; cases hw
    · simp only [walk, hp, if_false] at hw
      have hitems : items = [] := by cases hw; rfl
      subst hitems
      intro s b hm
      cases hm

theorem walkChildren_tokens_slash (nf : Option (String → Bool)) (cs : EntryList)
    (rel : List String) (items : List Item) (hwf : wfChildren cs = true)
    (hrel : rel.all goodComp = true)
    (hw : walkChildren nf cs rel = .ok items) :
    ∀ s b, Item.nameTok s b ∈ items → (lastChar s = some '/' ↔ b = true) := by
  cases cs with
  | nil =>
    have hitems : items = [] := by cases hw; rfl
    subst hitems
    intro s b hm
    cases hm
  | cons n c rest =>
    simp only [wfChildren, Bool.and_eq_true] at hwf
    obtain ⟨⟨hgn, hwc⟩, hwr⟩ := hwf
    cases hw1 : walk nf c (rel ++ [n]) with
    | ok i =>
      cases hw2 : walkChildren nf rest rel with
      | ok is =>
        simp only [walkChildren, hw1, hw2] at hw
        have hitems : items = i ++ is := by cases hw; rfl
        subst hitems
        intro s b hm
        rcases List.mem_append.mp hm with hm | hm
        · have hrel' : (rel ++ [n]).all goodComp = true := by
            simp [List.all_append, hrel, hgn]
          exact walk_tokens_slash nf c (rel ++ [n]) i hwc hrel' hw1 s b hm
        · exact walkChildren_tokens_slash nf rest rel is hwr hrel hw2 s b hm
      | error u =>
        simp only [walkChildren, hw1, hw2] at hw
        cases hw
    | error u =>
      simp only [walkChildren, hw1] at hw
      cases hw

end

/-- Claim C7 (trailing-separator disambiguation): in any successful walk
of a well-formed tree (child names are non-empty and contain no `'/'`),
every name token fed into the accumulator ends in `'/'` exactly when its
entry is a directory; consequently a regular file's name token and a
directory's name token are never equal — a file `x` and a directory `x/`
cannot collide in the digest stream. -/
theorem trailing_separator (nf : Option (String → Bool)) (e : Entry) (rel : List String)
    (items : List Item) (hwf : wfE e = true) (hrel : rel.all goodComp = true)
    (hw : walk nf e rel = .ok items) :
    (∀ s b, Item.nameTok s b ∈ items → (lastChar s = some '/' ↔ b = true)) ∧
    (∀ s b s' b', Item.nameTok s b ∈ items → Item.nameTok s' b' ∈ items →
      b = false → b' = true → s ≠ s') := by
  have h1 := walk_tokens_slash nf e rel items hwf hrel hw
  refine ⟨h1, ?_⟩
  intro s b s' b' hm hm' hb hb' heq
  subst heq
  subst hb
  subst hb'
  have hfile := h1 s false hm
  have hdir := h1 s true hm'
  simp only [iff_true] at hdir
  simp only [Bool.false_eq_true, iff_false] at hfile
  exact hfile hdir

/-- Witness for C7 on a concrete two-entry tree. -/
theorem trailing_separator_witness :
    wfE (.dir (.cons "a" (.file [5]) .nil)) = true ∧
    ([] : List String).all goodComp = true ∧
    walk none (.dir (.cons "a" (.file [5]) .nil)) [] =
      .ok [.nameTok "./" true, .nameTok "a" false, .fileBytes [5]] ∧
    ((∀ s b, Item.nameTok s b ∈
        [Item.nameTok "./" true, Item.nameTok "a" false, Item.fileBytes [5]] →
        (lastChar s = some '/' ↔ b = true)) ∧
      (∀ s b s' b', Item.nameTok s b ∈
        [Item.nameTok "./" true, Item.nameTok "a" false, Item.fileBytes [5]] →
        Item.nameTok s' b' ∈
          [Item.nameTok "./" true, Item.nameTok "a" false, Item.fileBytes [5]] →
        b = false → b' = true → s ≠ s')) :=
  ⟨by decide, by decide, by decide,
    trailing_separator none (.dir (.cons "a" (.file [5]) .nil)) []
      [Item.nameTok "./" true, Item.nameTok "a" false, Item.fileBytes [5]]
      (by decide) (by decide) (by decide)⟩

/-- Claim C9 (default root): when the `root` argument is omitted it
defaults to `path` itself, so the top-level name token is `"."` (or
`"./"` when the entry is a directory), the resulting digest does not
depend on the absolute location or basename of the root path, and a name
filter rejecting the top name prunes the entire hash, returning the
accumulator with nothing fed. -/
theorem default_root (e : Entry) (p1 p2 : List String) (nf : Option (String → Bool))
    (h : List Nat) :
    entryName e [] = (if e.isDir then "./" else ".") ∧
    hash_path e p1 (some h) none nf = hash_path_rec nf e [] h ∧
    hash_path e p1 (some h) none nf = hash_path e p2 (some h) none nf ∧
    (passes nf (entryName e []) = false → hash_path e p1 (some h) none nf = .ok h) := by
  have hcall : ∀ p : List String, hash_path e p (some h) none nf = hash_path_rec nf e [] h := by
    intro p
    simp [hash_path, List.drop_length]
  have hdot : asPosix [] = "." := by decide
  have hdotslash : asPosix [] ++ "/" = "./" := by decide
  have hname : entryName e [] = (if e.isDir then "./" else ".") := by
    cases e <;> simp [entryName, Entry.isDir, hdot, hdotslash]
  refine ⟨hname, hcall p1, by rw [hcall p1, hcall p2], ?_⟩
  intro hp
  rw [hcall p1]
  exact hash_path_rec_pruned nf e [] h hp

/-- Witness for C9 at a concrete file and two distinct absolute paths. -/
theorem default_root_witness :
    entryName (.file [3]) [] = (if Entry.isDir (.file [3]) then "./" else ".") ∧
    hash_path (.file [3]) ["r", "x"] (some [9]) none none =
      hash_path_rec none (.file [3]) [] [9] ∧
    hash_path (.file [3]) ["r", "x"] (some [9]) none none =
      hash_path (.file [3]) ["q"] (some [9]) none none ∧
    (passes none (entryName (.file [3]) []) = false →
      hash_path (.file [3]) ["r", "x"] (some [9]) none none = .ok [9]) :=
  default_root (.file [3]) ["r", "x"] ["q"] none [9]

/-- Claim C10 (worker-count floor): `Worker.__init__(name, threads)`
creates exactly `threads` worker threads when `threads > 1` and exactly
one when `threads ≤ 1` — including `threads = 0` or negative — and every
thread is created unstarted. -/
theorem worker_thread_count (name : String) (threads : Int) :
    (workerInit name threads).threads.length = (if 1 < threads then threads.toNat else 1) ∧
    ∀ t ∈ (workerInit name threads).threads, t.pc = PC.unstarted := by
  constructor
  · by_cases h1 : 1 < threads <;> simp [workerInit, h1]
  · intro t ht
    by_cases h1 : 1 < threads <;> simp only [workerInit, h1, if_true, if_false] at ht
    · simp only [List.mem_map] at ht
      obtain ⟨i, _, rfl⟩ := ht
      rfl
    · simp only [List.mem_singleton] at ht
      subst ht
      rfl

/-- Claim C8 (wait before start is a no-op): `wait()` never mutates the
pool's state (queue, threads, errors, started flag all unchanged); when
the pool was never started it returns immediately regardless of thread
state, and when started it returns exactly when every worker thread has
terminated. -/
theorem wait_before_start (s : Worker) :
    (Worker.wait s).queue = s.queue ∧ (Worker.wait s).threads = s.threads ∧
    (Worker.wait s).errors = s.errors ∧ (Worker.wait s).started = s.started ∧
    Worker.wait s = s ∧
    (s.started = false → waitReturns s = true) ∧
    (s.started = true → (waitReturns s = true ↔ ∀ t ∈ s.threads, t.pc = PC.stopped)) := by
  have hid : Worker.wait s = s := by
    unfold Worker.wait
    split <;> rfl
  refine ⟨by rw [hid], by rw [hid], by rw [hid], by rw [hid], hid, ?_, ?_⟩
  · intro h
    simp [waitReturns, h]
  · intro h
    simp [waitReturns, h, List.all_eq_true]

/-- Witness for C8 at a freshly constructed pool. -/
theorem wait_before_start_witness :
    (Worker.wait (workerInit "w" 1)).queue = (workerInit "w" 1).queue ∧
    (Worker.wait (workerInit "w" 1)).threads = (workerInit "w" 1).threads ∧
    (Worker.wait (workerInit "w" 1)).errors = (workerInit "w" 1).errors ∧
    (Worker.wait (workerInit "w" 1)).started = (workerInit "w" 1).started ∧
    Worker.wait (workerInit "w" 1) = workerInit "w" 1 ∧
    ((workerInit "w" 1).started = false → waitReturns (workerInit "w" 1) = true) ∧
    ((workerInit "w" 1).started = true →
      (waitReturns (workerInit "w" 1) = true ↔
        ∀ t ∈ (workerInit "w" 1).threads, t.pc = PC.stopped)) :=
  wait_before_start (workerInit "w" 1)

theorem countP_set {α : Type} (p : α → Bool) :
    ∀ (l : List α) (w : Nat) (t x : α), l[w]? = some t →
      (l.set w x).countP p + (if p t then 1 else 0) =
        l.countP p + (if p x then 1 else 0)
  | [], w, t, x, h => by simp at h
  | a :: l, 0, t, x, h => by
    simp only [List.getElem?_cons_zero, Option.some_inj] at h
    subst h
    simp only [List.set_cons_zero, List.countP_cons]
    omega
  | a :: l, w + 1, t, x, h => by
    simp only [List.getElem?_cons_succ] at h
    have ih := countP_set p l w t x h
    simp only [List.set_cons_succ, List.countP_cons]
    omega

theorem pcOf_set (l : List ThreadH) (w : Nat) (t : ThreadH) (pc' : PC)
    (ht : l[w]? = some t) (v : Nat) :
    pcOf (l.set w { t with pc := pc' }) v = if v = w then pc' else pcOf l v := by
  by_cases hv : v = w
  · subst hv
    have hlt : v < l.length := by
      rcases List.getElem?_eq_some_iff.mp ht with ⟨h1, _⟩
      exact h1
    simp [pcOf, List.getElem?_set_eq_of_lt _ hlt]
  · simp [pcOf, List.getElem?_set_ne (fun h => hv h.symm), hv]

theorem set_ne_nil {α : Type} (l : List α) (w : Nat) (x : α) (h : l ≠ []) :
    l.set w x ≠ [] := by
  cases l with
  | nil => exact h
  | cons a l => cases w <;> simp

theorem getD_false_of_all_false (l : List Bool) (hall : ∀ b ∈ l, b = false) (k : Nat) :
    l.getD k false = false := by
  cases h : l[k]? with
  | none => simp [List.getD, h]
  | some b =>
    obtain ⟨hlt, hb⟩ := List.getElem?_eq_some_iff.mp h
    have hmem : b ∈ l := hb ▸ List.getElem_mem hlt
    simp [List.getD, h, hall b hmem]

theorem pcAt_eq_pcOf (s : Worker) (v : Nat) : pcAt s v = pcOf s.threads v := rfl

theorem invC1_step (n : Nat) (s : Worker) (w : Nat) (hinv : InvC1 n s) :
    InvC1 n (step s w) := by
  obtain ⟨hall, herr, hnf, hcnt, hstop, hne⟩ := hinv
  cases ht : s.threads[w]? with
  | none =>
    simp only [step, ht]
    exact ⟨hall, herr, hnf, hcnt, hstop, hne⟩
  | some t =>
    cases hpc : t.pc with
    | unstarted =>
      simp only [step, ht, hpc]
      exact ⟨hall, herr, hnf, hcnt, hstop, hne⟩
    | stopped =>
      simp only [step, ht, hpc]
      exact ⟨hall, herr, hnf, hcnt, hstop, hne⟩
    | top =>
      have hq : s.errors.isEmpty = true := by simp [herr]
      simp only [step, ht, hpc, hq, if_true]
      refine ⟨hall, herr, ?_, ?_, ?_, set_ne_nil _ _ _ hne⟩
      · intro v k
        rw [pcAt_eq_pcOf]
        dsimp only
        rw [pcOf_set s.threads w t PC.ready ht v]
        split
        · simp
        · exact hnf v k
      · intro k
        have hc := countP_set (fun th => th.pc == PC.holding k) s.threads w t
          { t with pc := PC.ready } ht
        simp only [hpc] at hc
        simp at hc
        dsimp only [heldCount]
        simp only [heldCount] at hcnt
        have := hcnt k
        omega
      · intro ⟨t0, ht0, hst⟩
        rcases List.mem_or_eq_of_mem_set ht0 with hmem | heq
        · exact hstop ⟨t0, hmem, hst⟩
        · rw [heq] at hst
          exact absurd hst (by simp)
    | ready =>
      cases hqu : s.queue with
      | nil =>
        simp only [step, ht, hpc, hqu]
        refine ⟨hall, herr, ?_, ?_, ?_, set_ne_nil _ _ _ hne⟩
        · intro v k
          rw [pcAt_eq_pcOf]
          dsimp only
          rw [pcOf_set s.threads w t PC.stopped ht v]
          split
          · simp
          · exact hnf v k
        · intro k
          have hc := countP_set (fun th => th.pc == PC.holding k) s.threads w t
            { t with pc := PC.stopped } ht
          simp only [hpc] at hc
          simp at hc
          dsimp only [heldCount]
          simp only [heldCount] at hcnt
          have := hcnt k
          rw [hqu] at this
          omega
        · intro _
          rfl
      | cons k0 rest =>
        simp only [step, ht, hpc, hqu]
        refine ⟨hall, herr, ?_, ?_, ?_, set_ne_nil _ _ _ hne⟩
        · intro v k
          rw [pcAt_eq_pcOf]
          dsimp only
          rw [pcOf_set s.threads w t (PC.holding k0) ht v]
          split
          · simp
          · exact hnf v k
        · intro k
          have hc := countP_set (fun th => th.pc == PC.holding k) s.threads w t
            { t with pc := PC.holding k0 } ht
          simp only [hpc] at hc
          dsimp only [heldCount]
          simp only [heldCount] at hcnt
          have hck := hcnt k
          rw [hqu, List.count_cons] at hck
          by_cases hkk : k = k0
          · subst hkk
            simp at hc hck
            omega
          · simp [hkk, Ne.symm hkk] at hc hck
            omega
        · intro ⟨t0, ht0, hst⟩
          rcases List.mem_or_eq_of_mem_set ht0 with hmem | heq
          · have := hstop ⟨t0, hmem, hst⟩
            rw [hqu] at this
            exact absurd this (by simp)
          · rw [heq] at hst
            exact absurd hst (by simp)
    | holding k0 =>
      have hgd : s.tasks.getD k0 false = false := getD_false_of_all_false s.tasks hall k0
      simp only [step, ht, hpc, hgd, Bool.false_eq_true, if_false]
      refine ⟨hall, herr, ?_, ?_, ?_, set_ne_nil _ _ _ hne⟩
      · intro v k
        rw [pcAt_eq_pcOf]
        dsimp only
        rw [pcOf_set s.threads w t PC.top ht v]
        split
        · simp
        · exact hnf v k
      · intro k
        have hc := countP_set (fun th => th.pc == PC.holding k) s.threads w t
          { t with pc := PC.top } ht
        simp only [hpc] at hc
        dsimp only [heldCount]
        simp only [heldCount] at hcnt
        have hck := hcnt k
        rw [List.count_append]
        by_cases hkk : k = k0
        · subst hkk
          simp at hc
          simp [List.count_singleton]
          omega
        · simp [hkk, Ne.symm hkk] at hc
          simp [List.count_singleton, hkk]
          omega
      · intro ⟨t0, ht0, hst⟩
        rcases List.mem_or_eq_of_mem_set ht0 with hmem | heq
        · exact hstop ⟨t0, hmem, hst⟩
        · rw [heq] at hst
          exact absurd hst (by simp)
    | failed k0 =>
      exact absurd (show pcAt s w = PC.failed k0 by simp [pcAt, ht, hpc]) (hnf w k0)

theorem addTasks_fields (bs : List Bool) : ∀ (s : Worker),
    (addTasks s bs).tasks = s.tasks ++ bs ∧
    (addTasks s bs).queue = s.queue ++ List.range' s.tasks.length bs.length ∧
    (addTasks s bs).threads = s.threads ∧
    (addTasks s bs).errors = s.errors ∧
    (addTasks s bs).invoked = s.invoked ∧
    (addTasks s bs).events = s.events ∧
    (addTasks s bs).started = s.started := by
  induction bs with
  | nil => intro s; simp [addTasks, List.range']
  | cons b rest ih =>
    intro s
    have h := ih (Worker.add_task s b)
    have hstep : addTasks s (b :: rest) = addTasks (Worker.add_task s b) rest := rfl
    obtain ⟨h1, h2, h3, h4, h5, h6, h7⟩ := h
    rw [hstep]
    refine ⟨?_, ?_, h3, h4, h5, h6, h7⟩
    · rw [h1]
      simp [Worker.add_task]
    · rw [h2]
      simp only [Worker.add_task, List.length_cons, List.length_append,
        List.length_singleton]
      rw [List.range'_succ s.tasks.length rest.length 1]
      simp [List.append_assoc]

theorem invC1_runSched (n : Nat) (sched : List Nat) :
    ∀ (s : Worker), InvC1 n s → InvC1 n (runSched s sched) := by
  induction sched with
  | nil => intro s h; exact h
  | cons w ws ih =>
    intro s h
    show InvC1 n (runSched (step s w) ws)
    exact ih _ (invC1_step n s w h)

theorem workerInit_threads_ne_nil (name : String) (nth : Int) :
    (workerInit name nth).threads ≠ [] := by
  by_cases h1 : 1 < nth
  · simp only [workerInit, h1, if_true]
    intro hcon
    have := congrArg List.length hcon
    simp at this
    omega
  · simp [workerInit, h1]

theorem invC1_init (name : String) (nth : Int) (behaviors : List Bool)
    (hok : ∀ b ∈ behaviors, b = false) :
    InvC1 behaviors.length (Worker.start (addTasks (workerInit name nth) behaviors)) := by
  obtain ⟨h1, h2, h3, h4, h5, h6, h7⟩ := addTasks_fields behaviors (workerInit name nth)
  have hmapth : (Worker.start (addTasks (workerInit name nth) behaviors)).threads
      = (addTasks (workerInit name nth) behaviors).threads.map
          (fun t => { t with pc := PC.top }) := rfl
  refine ⟨?_, ?_, ?_, ?_, ?_, ?_⟩
  · intro b hb
    apply hok
    have heq : (Worker.start (addTasks (workerInit name nth) behaviors)).tasks
        = (addTasks (workerInit name nth) behaviors).tasks := rfl
    rw [heq, h1] at hb
    simpa [workerInit] using hb
  · show (addTasks (workerInit name nth) behaviors).errors = []
    rw [h4]
    rfl
  · intro v k
    rw [pcAt_eq_pcOf, hmapth]
    unfold pcOf
    cases hv : ((addTasks (workerInit name nth) behaviors).threads.map
        (fun t => { t with pc := PC.top }))[v]? with
    | none => exact fun hcon => PC.noConfusion hcon
    | some t0 =>
      show t0.pc ≠ PC.failed k
      rw [List.getElem?_map] at hv
      cases hv2 : (addTasks (workerInit name nth) behaviors).threads[v]? with
      | none => rw [hv2] at hv; simp at hv
      | some t1 =>
        rw [hv2] at hv
        rw [← Option.some_inj.mp hv]
        exact fun hcon => PC.noConfusion hcon
  · intro k
    have hq : (Worker.start (addTasks (workerInit name nth) behaviors)).queue
        = List.range behaviors.length := by
      show (addTasks (workerInit name nth) behaviors).queue = _
      rw [h2]
      simp [workerInit, List.range_eq_range']
    have hi : (Worker.start (addTasks (workerInit name nth) behaviors)).invoked = [] := by
      show (addTasks (workerInit name nth) behaviors).invoked = []
      rw [h5]
      rfl
    have hh : heldCount (Worker.start (addTasks (workerInit name nth) behaviors)) k = 0 := by
      apply List.countP_eq_zero.mpr
      intro a ha
      rw [hmapth] at ha
      obtain ⟨t1, _, rfl⟩ := List.mem_map.mp ha
      simp
    rw [show heldCount (Worker.start (addTasks (workerInit name nth) behaviors)) k
      = 0 from hh, hq, hi]
    simp
  · intro ⟨t0, ht0, hst⟩
    rw [hmapth] at ht0
    obtain ⟨t1, _, rfl⟩ := List.mem_map.mp ht0
    simp at hst
  · rw [hmapth, h3]
    cases hcon2 : (workerInit name nth).threads with
    | nil => exact absurd hcon2 (workerInit_threads_ne_nil name nth)
    | cons a l => simp

/-- Claim C1 (pool completeness): if every task enqueued (via `add_task`, before
`start`) runs without raising, then in any schedule after which every
worker thread has terminated, the multiset of invocations is exactly the
enqueued tasks — each invoked exactly once, none skipped — and `errors`
is empty. -/
theorem pool_completeness (name : String) (nth : Int) (behaviors : List Bool)
    (sched : List Nat)
    (hok : ∀ b ∈ behaviors, b = false)
    (hstopped : ∀ t ∈ (poolRun name nth behaviors sched).threads, t.pc = PC.stopped) :
    (poolRun name nth behaviors sched).invoked.Perm (List.range behaviors.length) ∧
    (poolRun name nth behaviors sched).errors = [] := by
  have hinv : InvC1 behaviors.length (poolRun name nth behaviors sched) :=
    invC1_runSched behaviors.length sched _ (invC1_init name nth behaviors hok)
  obtain ⟨hall, herr, hnf, hcnt, hstop, hne⟩ := hinv
  refine ⟨?_, herr⟩
  have hq : (poolRun name nth behaviors sched).queue = [] := by
    apply hstop
    obtain ⟨t0, ht0⟩ := List.exists_mem_of_ne_nil _ hne
    exact ⟨t0, ht0, hstopped t0 ht0⟩
  have hheld : ∀ k, heldCount (poolRun name nth behaviors sched) k = 0 := by
    intro k
    apply List.countP_eq_zero.mpr
    intro a ha
    rw [hstopped a ha]
    simp
  rw [List.perm_iff_count]
  intro a
  have hca := hcnt a
  rw [hq, hheld a] at hca
  simpa using hca

/-- Witness for C1: one worker, one task, a complete five-step schedule. -/
theorem pool_completeness_witness :
    (∀ b ∈ [false], b = false) ∧
    (∀ t ∈ (poolRun "w" 1 [false] [0, 0, 0, 0, 0]).threads, t.pc = PC.stopped) ∧
    ((poolRun "w" 1 [false] [0, 0, 0, 0, 0]).invoked.Perm (List.range [false].length) ∧
      (poolRun "w" 1 [false] [0, 0, 0, 0, 0]).errors = []) :=
  ⟨by decide, by decide,
    pool_completeness "w" 1 [false] [0, 0, 0, 0, 0] (by decide) (by decide)⟩

theorem findIdx?_append_some {α : Type} (p : α → Bool) :
    ∀ (l1 l2 : List α) (st i : Nat), List.findIdx? p l1 st = some i →
      List.findIdx? p (l1 ++ l2) st = some i
  | [], l2, st, i, h => by simp [List.findIdx?_nil] at h
  | a :: l1, l2, st, i, h => by
    rw [List.cons_append, List.findIdx?_cons]
    rw [List.findIdx?_cons] at h
    by_cases hp : p a = true
    · simpa [hp] using h
    · simp only [hp, Bool.false_eq_true, if_false] at h ⊢
      exact findIdx?_append_some p l1 l2 (st + 1) i h

theorem findIdx?_append_sing {α : Type} (p : α → Bool) :
    ∀ (l1 : List α) (e : α) (st : Nat), List.findIdx? p l1 st = none →
      List.findIdx? p (l1 ++ [e]) st =
        if p e then some (st + l1.length) else none
  | [], e, st, _ => by
    simp only [List.nil_append, List.findIdx?_cons, List.findIdx?_nil, List.length_nil,
      Nat.add_zero]
  | a :: l1, e, st, h => by
    rw [List.cons_append, List.findIdx?_cons]
    rw [List.findIdx?_cons] at h
    by_cases hp : p a = true
    · simp [hp] at h
    · simp only [hp, Bool.false_eq_true, if_false] at h ⊢
      rw [findIdx?_append_sing p l1 e (st + 1) h]
      split
      · congr 1
        simp only [List.length_cons]
        omega
      · rfl

theorem findIdx?_bounds {α : Type} (p : α → Bool) :
    ∀ (l : List α) (st i : Nat), List.findIdx? p l st = some i → st ≤ i ∧ i < st + l.length
  | [], st, i, h => by simp [List.findIdx?_nil] at h
  | a :: l, st, i, h => by
    rw [List.findIdx?_cons] at h
    by_cases hp : p a = true
    · simp only [hp, if_true, Option.some_inj] at h
      simp only [List.length_cons]
      omega
    · simp only [hp, Bool.false_eq_true, if_false] at h
      have := findIdx?_bounds p l (st + 1) i h
      simp only [List.length_cons]
      omega

theorem firstErrIdx_append_some (evs l : List Event) (i : Nat)
    (h : firstErrIdx evs = some i) : firstErrIdx (evs ++ l) = some i :=
  findIdx?_append_some isErr evs l 0 i h

theorem firstErrIdx_append_nonerr (evs : List Event) (e : Event) (he : isErr e = false)
    (h : firstErrIdx evs = none) : firstErrIdx (evs ++ [e]) = none := by
  rw [firstErrIdx, findIdx?_append_sing isErr evs e 0 h, he]
  simp

theorem firstErrIdx_append_err (evs : List Event) (e : Event) (he : isErr e = true)
    (h : firstErrIdx evs = none) : firstErrIdx (evs ++ [e]) = some evs.length := by
  rw [firstErrIdx, findIdx?_append_sing isErr evs e 0 h, he]
  simp

theorem firstErrIdx_lt_length (evs : List Event) (i : Nat) (h : firstErrIdx evs = some i) :
    i < evs.length := by
  have := findIdx?_bounds isErr evs 0 i h
  omega

theorem runsBy_append (w : Nat) (evs l : List Event) :
    runsBy w (evs ++ l) = runsBy w evs + runsBy w l :=
  List.countP_append _ _ _

theorem runsBy_sing_deq (w w0 t : Nat) : runsBy w [Event.deq w0 t] = 0 := by
  simp [runsBy, List.countP_cons]

theorem runsBy_sing_err (w w0 t : Nat) : runsBy w [Event.err w0 t] = 0 := by
  simp [runsBy, List.countP_cons]

theorem runsBy_sing_run (w w0 t : Nat) :
    runsBy w [Event.run w0 t] = if w0 = w then 1 else 0 := by
  by_cases h : w0 = w <;> simp [runsBy, List.countP_cons, h]

theorem pot_le_one (pc : PC) : pot pc ≤ 1 := by
  cases pc <;> simp [pot]

theorem step_tasks (s : Worker) (w : Nat) : (step s w).tasks = s.tasks := by
  unfold step
  split
  · rfl
  · split
    · rfl
    · rfl
    · split <;> rfl
    · split <;> rfl
    · split <;> rfl
    · rfl

theorem runSched_tasks (sched : List Nat) : ∀ (s : Worker),
    (runSched s sched).tasks = s.tasks := by
  induction sched with
  | nil => intro s; rfl
  | cons w ws ih =>
    intro s
    show (runSched (step s w) ws).tasks = s.tasks
    rw [ih (step s w), step_tasks]

theorem poolRun_tasks (name : String) (nth : Int) (behaviors : List Bool)
    (sched : List Nat) : (poolRun name nth behaviors sched).tasks = behaviors := by
  unfold poolRun
  rw [runSched_tasks]
  show (addTasks (workerInit name nth) behaviors).tasks = behaviors
  rw [(addTasks_fields behaviors (workerInit name nth)).1]
  rfl

theorem pcAt_some (s : Worker) (w : Nat) (t : ThreadH) (ht : s.threads[w]? = some t) :
    pcAt s w = t.pc := by
  simp [pcAt, ht]

theorem errors_append_ne_nil (l : List Nat) (k : Nat) : l ++ [k] ≠ [] := by
  simp

theorem pcOf_some (s : Worker) (w : Nat) (t : ThreadH) (ht : s.threads[w]? = some t) :
    pcOf s.threads w = t.pc := by
  simp [pcOf, ht]

theorem invErr_step (s : Worker) (w : Nat) (hinv : InvErr s) : InvErr (step s w) := by
  obtain ⟨ha, hb, hcpc, hd⟩ := hinv
  cases ht : s.threads[w]? with
  | none =>
    simp only [step, ht]
    exact ⟨ha, hb, hcpc, hd⟩
  | some t =>
    cases hpc : t.pc with
    | unstarted =>
      simp only [step, ht, hpc]
      exact ⟨ha, hb, hcpc, hd⟩
    | stopped =>
      simp only [step, ht, hpc]
      exact ⟨ha, hb, hcpc, hd⟩
    | top =>
      simp only [step, ht, hpc]
      split
      · -- `self.errors` empty: pass the check, move to the dequeue
        rename_i herr
        refine ⟨?_, hb, ?_, ?_⟩
        · intro k hk hraise
          rcases ha k hk hraise with hl | ⟨w', hw'⟩
          · exact Or.inl hl
          · refine Or.inr ⟨w', ?_⟩
            rw [pcAt_eq_pcOf] at hw' ⊢
            dsimp only
            rw [pcOf_set s.threads w t PC.ready ht w']
            split
            · rename_i hww
              rw [hww, pcOf_some s w t ht, hpc] at hw'
              exact absurd hw' (by simp)
            · exact hw'
        · intro w' k hw'
          rw [pcAt_eq_pcOf] at hw'
          dsimp only at hw'
          rw [pcOf_set s.threads w t PC.ready ht w'] at hw'
          split at hw'
          · exact absurd hw' (by simp)
          · exact hcpc w' k (by rw [pcAt_eq_pcOf]; exact hw')
        · dsimp only
          cases hfo : firstErrIdx s.events with
          | none => simp only [hfo]
          | some i =>
            simp only [hfo] at hd ⊢
            obtain ⟨hdn, _⟩ := hd
            exact absurd (List.isEmpty_iff.mp herr) hdn
      · -- `self.errors` non-empty: break out of the loop
        rename_i herr
        refine ⟨?_, hb, ?_, ?_⟩
        · intro k hk hraise
          rcases ha k hk hraise with hl | ⟨w', hw'⟩
          · exact Or.inl hl
          · refine Or.inr ⟨w', ?_⟩
            rw [pcAt_eq_pcOf] at hw' ⊢
            dsimp only
            rw [pcOf_set s.threads w t PC.stopped ht w']
            split
            · rename_i hww
              rw [hww, pcOf_some s w t ht, hpc] at hw'
              exact absurd hw' (by simp)
            · exact hw'
        · intro w' k hw'
          rw [pcAt_eq_pcOf] at hw'
          dsimp only at hw'
          rw [pcOf_set s.threads w t PC.stopped ht w'] at hw'
          split at hw'
          · exact absurd hw' (by simp)
          · exact hcpc w' k (by rw [pcAt_eq_pcOf]; exact hw')
        · dsimp only
          cases hfo : firstErrIdx s.events with
          | none => simp only [hfo]
          | some i =>
            simp only [hfo] at hd ⊢
            obtain ⟨hdn, hdb⟩ := hd
            refine ⟨hdn, ?_⟩
            intro w'
            have hkey := hdb w'
            rw [pcAt_eq_pcOf] at hkey
            rw [pcAt_eq_pcOf]
            dsimp only
            rw [pcOf_set s.threads w t PC.stopped ht w']
            split
            · rename_i hww
              have hpcw : pcOf s.threads w' = t.pc := by
                rw [hww]
                exact pcOf_some s w t ht
              rw [hpcw, hpc] at hkey
              simp only [pot] at hkey ⊢
              omega
            · exact hkey
    | ready =>
      simp only [step, ht, hpc]
      split
      · -- queue empty: graceful exit
        rename_i hqu
        refine ⟨?_, hb, ?_, ?_⟩
        · intro k hk hraise
          rcases ha k hk hraise with hl | ⟨w', hw'⟩
          · exact Or.inl hl
          · refine Or.inr ⟨w', ?_⟩
            rw [pcAt_eq_pcOf] at hw' ⊢
            dsimp only
            rw [pcOf_set s.threads w t PC.stopped ht w']
            split
            · rename_i hww
              rw [hww, pcOf_some s w t ht, hpc] at hw'
              exact absurd hw' (by simp)
            · exact hw'
        · intro w' k hw'
          rw [pcAt_eq_pcOf] at hw'
          dsimp only at hw'
          rw [pcOf_set s.threads w t PC.stopped ht w'] at hw'
          split at hw'
          · exact absurd hw' (by simp)
          · exact hcpc w' k (by rw [pcAt_eq_pcOf]; exact hw')
        · dsimp only
          cases hfo : firstErrIdx s.events with
          | none => simp only [hfo]
          | some i =>
            simp only [hfo] at hd ⊢
            obtain ⟨hdn, hdb⟩ := hd
            refine ⟨hdn, ?_⟩
            intro w'
            have hkey := hdb w'
            rw [pcAt_eq_pcOf] at hkey
            rw [pcAt_eq_pcOf]
            dsimp only
            rw [pcOf_set s.threads w t PC.stopped ht w']
            split
            · rename_i hww
              have hpcw : pcOf s.threads w' = t.pc := by
                rw [hww]
                exact pcOf_some s w t ht
              rw [hpcw, hpc] at hkey
              simp only [pot] at hkey ⊢
              omega
            · exact hkey
      · -- dequeue the head task k0
        rename_i k0 rest hqu
        refine ⟨?_, ?_, ?_, ?_⟩
        · intro k hk hraise
          rcases ha k hk hraise with hl | ⟨w', hw'⟩
          · exact Or.inl hl
          · refine Or.inr ⟨w', ?_⟩
            rw [pcAt_eq_pcOf] at hw' ⊢
            dsimp only
            rw [pcOf_set s.threads w t (PC.holding k0) ht w']
            split
            · rename_i hww
              rw [hww, pcOf_some s w t ht, hpc] at hw'
              exact absurd hw' (by simp)
            · exact hw'
        · intro w' j hj
          dsimp only at hj ⊢
          rcases List.mem_append.mp hj with hj | hj
          · exact List.mem_append_left _ (hb w' j hj)
          · simp at hj
        · intro w' j hj
          rw [pcAt_eq_pcOf] at hj
          dsimp only at hj ⊢
          rw [pcOf_set s.threads w t (PC.holding k0) ht w'] at hj
          split at hj
          · exact absurd hj (by simp)
          · exact List.mem_append_left _ (hcpc w' j (by rw [pcAt_eq_pcOf]; exact hj))
        · dsimp only
          cases hfo : firstErrIdx s.events with
          | none =>
            rw [firstErrIdx_append_nonerr s.events (Event.deq w k0) rfl hfo]
            trivial
          | some i =>
            rw [firstErrIdx_append_some s.events _ i hfo]
            simp only [hfo] at hd
            obtain ⟨hdn, hdb⟩ := hd
            refine ⟨hdn, ?_⟩
            intro w'
            have hkey := hdb w'
            rw [pcAt_eq_pcOf] at hkey
            have hlt : i < s.events.length := firstErrIdx_lt_length s.events i hfo
            rw [List.drop_append_of_le_length (by omega), runsBy_append,
              runsBy_sing_deq]
            rw [pcAt_eq_pcOf]
            dsimp only
            rw [pcOf_set s.threads w t (PC.holding k0) ht w']
            split
            · rename_i hww
              have hpcw : pcOf s.threads w' = t.pc := by
                rw [hww]
                exact pcOf_some s w t ht
              rw [hpcw, hpc] at hkey
              simp only [pot] at hkey ⊢
              omega
            · omega
    | holding k0 =>
      simp only [step, ht, hpc]
      split
      · -- the invocation raises: move to the append of the exception
        rename_i hraise0
        refine ⟨?_, ?_, ?_, ?_⟩
        · intro k hk hraise
          dsimp only at hk hraise
          rcases List.mem_append.mp hk with hk | hk
          · rcases ha k hk hraise with hl | ⟨w', hw'⟩
            · exact Or.inl hl
            · refine Or.inr ⟨w', ?_⟩
              rw [pcAt_eq_pcOf] at hw' ⊢
              dsimp only
              rw [pcOf_set s.threads w t (PC.failed k0) ht w']
              split
              · rename_i hww
                rw [hww, pcOf_some s w t ht, hpc] at hw'
                exact absurd hw' (by simp)
              · exact hw'
          · simp only [List.mem_singleton] at hk
            subst hk
            refine Or.inr ⟨w, ?_⟩
            rw [pcAt_eq_pcOf]
            dsimp only
            rw [pcOf_set s.threads w t (PC.failed k) ht w]
            simp
        · intro w' j hj
          dsimp only at hj ⊢
          rcases List.mem_append.mp hj with hj | hj
          · exact List.mem_append_left _ (hb w' j hj)
          · simp at hj
        · intro w' j hj
          rw [pcAt_eq_pcOf] at hj
          dsimp only at hj ⊢
          rw [pcOf_set s.threads w t (PC.failed k0) ht w'] at hj
          split at hj
          · rename_i hww
            have hjk : j = k0 := by
              cases hj
              rfl
            subst hjk
            subst hww
            exact List.mem_append_right _ (by simp)
          · exact List.mem_append_left _ (hcpc w' j (by rw [pcAt_eq_pcOf]; exact hj))
        · dsimp only
          cases hfo : firstErrIdx s.events with
          | none =>
            rw [firstErrIdx_append_nonerr s.events (Event.run w k0) rfl hfo]
            trivial
          | some i =>
            rw [firstErrIdx_append_some s.events _ i hfo]
            simp only [hfo] at hd
            obtain ⟨hdn, hdb⟩ := hd
            refine ⟨hdn, ?_⟩
            intro w'
            have hkey := hdb w'
            rw [pcAt_eq_pcOf] at hkey
            have hlt : i < s.events.length := firstErrIdx_lt_length s.events i hfo
            rw [List.drop_append_of_le_length (by omega), runsBy_append,
              runsBy_sing_run]
            rw [pcAt_eq_pcOf]
            dsimp only
            rw [pcOf_set s.threads w t (PC.failed k0) ht w']
            by_cases hww : w' = w
            · have hpcw : pcOf s.threads w' = t.pc := by
                rw [hww]
                exact pcOf_some s w t ht
              rw [hpcw, hpc] at hkey
              simp only [if_pos hww, if_pos hww.symm]
              simp only [pot] at hkey ⊢
              omega
            · simp only [if_neg hww, if_neg (fun hcon => hww (Eq.symm hcon))]
              omega
      · -- the invocation succeeds: back to the top of the loop
        rename_i hraise0
        refine ⟨?_, ?_, ?_, ?_⟩
        · intro k hk hraise
          dsimp only at hk hraise
          rcases List.mem_append.mp hk with hk | hk
          · rcases ha k hk hraise with hl | ⟨w', hw'⟩
            · exact Or.inl hl
            · refine Or.inr ⟨w', ?_⟩
              rw [pcAt_eq_pcOf] at hw' ⊢
              dsimp only
              rw [pcOf_set s.threads w t PC.top ht w']
              split
              · rename_i hww
                rw [hww, pcOf_some s w t ht, hpc] at hw'
                exact absurd hw' (by simp)
              · exact hw'
          · simp only [List.mem_singleton] at hk
            subst hk
            exact absurd hraise hraise0
        · intro w' j hj
          dsimp only at hj ⊢
          rcases List.mem_append.mp hj with hj | hj
          · exact List.mem_append_left _ (hb w' j hj)
          · simp at hj
        · intro w' j hj
          rw [pcAt_eq_pcOf] at hj
          dsimp only at hj ⊢
          rw [pcOf_set s.threads w t PC.top ht w'] at hj
          split at hj
          · exact absurd hj (by simp)
          · exact List.mem_append_left _ (hcpc w' j (by rw [pcAt_eq_pcOf]; exact hj))
        · dsimp only
          cases hfo : firstErrIdx s.events with
          | none =>
            rw [firstErrIdx_append_nonerr s.events (Event.run w k0) rfl hfo]
            trivial
          | some i =>
            rw [firstErrIdx_append_some s.events _ i hfo]
            simp only [hfo] at hd
            obtain ⟨hdn, hdb⟩ := hd
            refine ⟨hdn, ?_⟩
            intro w'
            have hkey := hdb w'
            rw [pcAt_eq_pcOf] at hkey
            have hlt : i < s.events.length := firstErrIdx_lt_length s.events i hfo
            rw [List.drop_append_of_le_length (by omega), runsBy_append,
              runsBy_sing_run]
            rw [pcAt_eq_pcOf]
            dsimp only
            rw [pcOf_set s.threads w t PC.top ht w']
            by_cases hww : w' = w
            · have hpcw : pcOf s.threads w' = t.pc := by
                rw [hww]
                exact pcOf_some s w t ht
              rw [hpcw, hpc] at hkey
              simp only [if_pos hww, if_pos hww.symm]
              simp only [pot] at hkey ⊢
              omega
            · simp only [if_neg hww, if_neg (fun hcon => hww (Eq.symm hcon))]
              omega
    | failed k0 =>
      simp only [step, ht, hpc]
      refine ⟨?_, ?_, ?_, ?_⟩
      · intro k hk hraise
        dsimp only at hk hraise
        rcases ha k hk hraise with hl | ⟨w', hw'⟩
        · exact Or.inl (List.mem_append_left _ hl)
        · by_cases hww : w' = w
          · rw [hww, pcAt_some s w t ht, hpc] at hw'
            have hkk : k = k0 := by
              cases hw'
              rfl
            subst hkk
            exact Or.inl (List.mem_append_right _ (by simp))
          · refine Or.inr ⟨w', ?_⟩
            rw [pcAt_eq_pcOf] at hw' ⊢
            dsimp only
            rw [pcOf_set s.threads w t PC.top ht w']
            rw [if_neg hww]
            exact hw'
      · intro w' j hj
        dsimp only at hj ⊢
        rcases List.mem_append.mp hj with hj | hj
        · exact List.mem_append_left _ (hb w' j hj)
        · simp only [List.mem_singleton] at hj
          have hjw : w' = w ∧ j = k0 := by
            cases hj
            exact ⟨rfl, rfl⟩
          obtain ⟨hjw1, hjw2⟩ := hjw
          subst hjw1
          subst hjw2
          exact List.mem_append_left _
            (hcpc w' j (by rw [pcAt_some s w' t ht, hpc]))
      · intro w' j hj
        rw [pcAt_eq_pcOf] at hj
        dsimp only at hj ⊢
        rw [pcOf_set s.threads w t PC.top ht w'] at hj
        split at hj
        · exact absurd hj (by simp)
        · exact List.mem_append_left _ (hcpc w' j (by rw [pcAt_eq_pcOf]; exact hj))
      · dsimp only
        cases hfo : firstErrIdx s.events with
        | none =>
          rw [firstErrIdx_append_err s.events (Event.err w k0) rfl hfo]
          refine ⟨errors_append_ne_nil s.errors k0, ?_⟩
          intro w'
          rw [List.drop_eq_nil_of_le (by simp)]
          have hple := pot_le_one (pcOf (s.threads.set w { t with pc := PC.top }) w')
          simp only [runsBy, List.countP_nil]
          rw [pcAt_eq_pcOf]
          dsimp only
          omega
        | some i =>
          rw [firstErrIdx_append_some s.events _ i hfo]
          simp only [hfo] at hd
          obtain ⟨hdn, hdb⟩ := hd
          refine ⟨errors_append_ne_nil s.errors k0, ?_⟩
          intro w'
          have hkey := hdb w'
          rw [pcAt_eq_pcOf] at hkey
          have hlt : i < s.events.length := firstErrIdx_lt_length s.events i hfo
          rw [List.drop_append_of_le_length (by omega), runsBy_append,
            runsBy_sing_err]
          rw [pcAt_eq_pcOf]
          dsimp only
          rw [pcOf_set s.threads w t PC.top ht w']
          split
          · rename_i hww
            have hpcw : pcOf s.threads w' = t.pc := by
              rw [hww]
              exact pcOf_some s w t ht
            rw [hpcw, hpc] at hkey
            simp only [pot] at hkey ⊢
            omega
          · omega

theorem invErr_runSched (sched : List Nat) : ∀ (s : Worker),
    InvErr s → InvErr (runSched s sched) := by
  induction sched with
  | nil => intro s h; exact h
  | cons w ws ih =>
    intro s h
    show InvErr (runSched (step s w) ws)
    exact ih _ (invErr_step s w h)

theorem invErr_init (name : String) (nth : Int) (behaviors : List Bool) :
    InvErr (Worker.start (addTasks (workerInit name nth) behaviors)) := by
  obtain ⟨h1, h2, h3, h4, h5, h6, h7⟩ := addTasks_fields behaviors (workerInit name nth)
  have hmapth : (Worker.start (addTasks (workerInit name nth) behaviors)).threads
      = (addTasks (workerInit name nth) behaviors).threads.map
          (fun t => { t with pc := PC.top }) := rfl
  have hev : (Worker.start (addTasks (workerInit name nth) behaviors)).events = [] := by
    show (addTasks (workerInit name nth) behaviors).events = []
    rw [h6]
    rfl
  have hinvk : (Worker.start (addTasks (workerInit name nth) behaviors)).invoked = [] := by
    show (addTasks (workerInit name nth) behaviors).invoked = []
    rw [h5]
    rfl
  refine ⟨?_, ?_, ?_, ?_⟩
  · intro k hk
    rw [hinvk] at hk
    cases hk
  · intro w' j hj
    rw [hev] at hj
    cases hj
  · intro w' j hj
    exfalso
    rw [pcAt_eq_pcOf, hmapth] at hj
    unfold pcOf at hj
    cases hv : ((addTasks (workerInit name nth) behaviors).threads.map
        (fun t => { t with pc := PC.top }))[w']? with
    | none =>
      rw [hv] at hj
      exact PC.noConfusion hj
    | some t0 =>
      rw [hv] at hj
      rw [List.getElem?_map] at hv
      cases hv2 : (addTasks (workerInit name nth) behaviors).threads[w']? with
      | none => rw [hv2] at hv; cases hv
      | some t1 =>
        rw [hv2] at hv
        rw [← Option.some_inj.mp hv] at hj
        exact PC.noConfusion hj
  · rw [hev]
    rw [show firstErrIdx ([] : List Event) = none from rfl]
    trivial

/-- Claim C2 (pool fail-stop, amended): in any complete run in which an
enqueued task `Tk` with raising behaviour was invoked: `errors` ends
non-empty and contains `Tk`'s exception; every recorded error was appended
by a worker that itself invoked the task that raised (append and log happen
inside that worker's `except` block); the append step does not propagate —
the worker returns to the top of its loop with the error recorded; and
after the first recorded error each worker performs at most one further
task invocation (a worker already past its error check may dequeue and run
one more task).  A task suffix may remain unexecuted. -/
theorem pool_fail_stop (name : String) (nth : Int) (behaviors : List Bool)
    (sched : List Nat) (k : Nat)
    (hstopped : ∀ t ∈ (poolRun name nth behaviors sched).threads, t.pc = PC.stopped)
    (hraise : behaviors.getD k false = true)
    (hinvk : k ∈ (poolRun name nth behaviors sched).invoked) :
    (poolRun name nth behaviors sched).errors ≠ [] ∧
    k ∈ (poolRun name nth behaviors sched).errors ∧
    (∀ w j, Event.err w j ∈ (poolRun name nth behaviors sched).events →
      Event.run w j ∈ (poolRun name nth behaviors sched).events) ∧
    (∀ i, firstErrIdx (poolRun name nth behaviors sched).events = some i →
      ∀ w, runsBy w ((poolRun name nth behaviors sched).events.drop (i + 1)) ≤ 1) ∧
    (∀ (s' : Worker) (w j : Nat) (t : ThreadH), s'.threads[w]? = some t →
      t.pc = PC.failed j →
        (step s' w).errors = s'.errors ++ [j] ∧ pcAt (step s' w) w = PC.top) ∧
    (∃ sched2 : List Nat,
      (∀ t ∈ (poolRun "w" 1 [true, false] sched2).threads, t.pc = PC.stopped) ∧
      (poolRun "w" 1 [true, false] sched2).invoked = [0]) := by
  have hinv : InvErr (poolRun name nth behaviors sched) :=
    invErr_runSched sched _ (invErr_init name nth behaviors)
  obtain ⟨ha, hb, hcpc, hd⟩ := hinv
  have htasks : (poolRun name nth behaviors sched).tasks = behaviors :=
    poolRun_tasks name nth behaviors sched
  have hkerr : k ∈ (poolRun name nth behaviors sched).errors := by
    rcases ha k hinvk (by rw [htasks]; exact hraise) with hl | ⟨w', hw'⟩
    · exact hl
    · exfalso
      unfold pcAt at hw'
      cases hv : (poolRun name nth behaviors sched).threads[w']? with
      | none =>
        rw [hv] at hw'
        exact PC.noConfusion hw'
      | some t0 =>
        rw [hv] at hw'
        have hmem : t0 ∈ (poolRun name nth behaviors sched).threads := by
          obtain ⟨hlt, hg⟩ := List.getElem?_eq_some_iff.mp hv
          exact hg ▸ List.getElem_mem hlt
        have hw2 : t0.pc = PC.failed k := hw'
        rw [hstopped t0 hmem] at hw2
        exact PC.noConfusion hw2
  refine ⟨List.ne_nil_of_mem hkerr, hkerr, hb, ?_, ?_, ?_⟩
  · intro i hi w'
    simp only [hi] at hd
    obtain ⟨_, hdb⟩ := hd
    have := hdb w'
    omega
  · intro s' w j t ht' hpc'
    constructor
    · simp only [step, ht', hpc']
    · rw [pcAt_eq_pcOf]
      simp only [step, ht', hpc']
      rw [pcOf_set s'.threads w t PC.top ht' w]
      simp
  · exact ⟨[0, 0, 0, 0, 0], by decide, by decide⟩

/-- Witness for C2: one worker, one raising task, a complete schedule. -/
theorem pool_fail_stop_witness :
    (∀ t ∈ (poolRun "v" 1 [true] [0, 0, 0, 0, 0]).threads, t.pc = PC.stopped) ∧
    ([true] : List Bool).getD 0 false = true ∧
    0 ∈ (poolRun "v" 1 [true] [0, 0, 0, 0, 0]).invoked ∧
    ((poolRun "v" 1 [true] [0, 0, 0, 0, 0]).errors ≠ [] ∧
      0 ∈ (poolRun "v" 1 [true] [0, 0, 0, 0, 0]).errors ∧
      (∀ w j, Event.err w j ∈ (poolRun "v" 1 [true] [0, 0, 0, 0, 0]).events →
        Event.run w j ∈ (poolRun "v" 1 [true] [0, 0, 0, 0, 0]).events) ∧
      (∀ i, firstErrIdx (poolRun "v" 1 [true] [0, 0, 0, 0, 0]).events = some i →
        ∀ w, runsBy w ((poolRun "v" 1 [true] [0, 0, 0, 0, 0]).events.drop (i + 1)) ≤ 1) ∧
      (∀ (s' : Worker) (w j : Nat) (t : ThreadH), s'.threads[w]? = some t →
        t.pc = PC.failed j →
          (step s' w).errors = s'.errors ++ [j] ∧ pcAt (step s' w) w = PC.top) ∧
      (∃ sched2 : List Nat,
        (∀ t ∈ (poolRun "w" 1 [true, false] sched2).threads, t.pc = PC.stopped) ∧
        (poolRun "w" 1 [true, false] sched2).invoked = [0])) :=
  ⟨by decide, by decide, by decide,
    pool_fail_stop "v" 1 [true] [0, 0, 0, 0, 0] 0 (by decide) (by decide) (by decide)⟩

/-- Counterexample for C2 as stated: a complete valid run (two workers, task 0 raising)
in which task 1 is dequeued and invoked entirely after the first recorded
error — refuting "no more tasks run after the first recorded error than
those already dequeued". -/
theorem pool_fail_stop_counterexample :
    (∀ t ∈ (poolRun "w" 2 [true, false] [0, 1, 0, 0, 0, 1, 1, 0, 1]).threads,
      t.pc = PC.stopped) ∧
    1 ∈ (poolRun "w" 2 [true, false] [0, 1, 0, 0, 0, 1, 1, 0, 1]).invoked ∧
    postErrorRunsPredequeued
      (poolRun "w" 2 [true, false] [0, 1, 0, 0, 0, 1, 1, 0, 1]).events = false :=
  ⟨by decide, by decide, by decide⟩

end RMBuild
